import Mathlib

/-!
Verification of the impertinence rule-resolution and matching engine.

The Rust sources (`src/main.rs`, `src/config.rs`) are shallowly embedded:
paths are lists of components (Rust `Path::components`, where the root
directory of an absolute path is itself a component), directory contents are
an inductive tree, and the walk-time evaluator, tag compiler and boolean
combinator are translated function by function.  The `rule_tree` crate is
not part of this repository's sources, so the rule tree is modelled from
the specification (see `RTree`).
-/

namespace Impertinence

/-- A single component of a filesystem path.  `root` is the root-directory
component that begins every absolute path (Rust `Component::RootDir`);
`name s` is an ordinary component. -/
inductive PathComp where
  | root : PathComp
  | name : String → PathComp
deriving DecidableEq, Repr

/-- A filesystem path, as its list of components (Rust `Path::components`).
An absolute path starts with `PathComp.root`; a relative path does not. -/
abbrev FsPath := List PathComp

/-- Rust `Path::starts_with`: component-wise prefix test. -/
def pathStartsWith (p target : FsPath) : Bool :=
  target.isPrefixOf p

/-- Rust `Path::ends_with`: component-wise suffix test. -/
def pathEndsWith (p sfx : FsPath) : Bool :=
  sfx.isSuffixOf p

/-- Whether a path is absolute (Rust `Path::is_absolute` on unix:
the path has a root component). -/
def pathIsAbsolute (p : FsPath) : Bool :=
  p.head? == some PathComp.root

/-- The on-disk shape of a visited filesystem entry.
`file` is a regular file; `symlink t` is a symbolic link whose *stored*
(raw, unresolved) link target is `t`; `dirErr` is a directory whose
contents cannot be read (`read_dir` fails); `dir entries` is a readable
directory, each entry being `none` when fetching it or its metadata fails
and `some n` otherwise. -/
inductive FsNode where
  | file : FsNode
  | symlink : FsPath → FsNode
  | dirErr : FsNode
  | dir : List (Option FsNode) → FsNode

/-- `is_symlink_to` (main.rs:94-96): the entry's raw `read_link` value
starts with `target`; a non-symlink (no readlink value) never matches. -/
def is_symlink_to (n : FsNode) (target : FsPath) : Bool :=
  match n with
  | FsNode.symlink t => pathStartsWith t target
  | _ => false

/-- The body of `is_symlink_dir_to` (main.rs:71-90) once `read_dir`
succeeded: every entry must be readable and be either a symlink whose raw
target starts with `target`, or a directory recursively satisfying the
same condition. -/
def symlinkDirEntriesOk : List (Option FsNode) → FsPath → Bool
  | [], _ => true
  | e :: rest, target =>
    (match e with
     | some (FsNode.symlink t) => pathStartsWith t target
     | some (FsNode.dir es) => symlinkDirEntriesOk es target
     | _ => false) && symlinkDirEntriesOk rest target
termination_by l _ => sizeOf l
decreasing_by
  · simp_arith
  · simp_arith

/-- `is_symlink_dir_to` (main.rs:64-91): `read_dir` must succeed (so the
node is a readable directory) and all entries must pass
`symlinkDirEntriesOk`. -/
def is_symlink_dir_to (n : FsNode) (target : FsPath) : Bool :=
  match n with
  | FsNode.dir entries => symlinkDirEntriesOk entries target
  | _ => false

/-- The walk-time rule variants (main.rs:98-106).  Tree paths and exact
paths are relative paths below the base, hence plain component-name lists;
symlink targets and suffixes are full paths. -/
inductive Rule where
  | Plain : String → Rule
  | MountPoint : String → Rule
  | SymLink : String → Option FsPath → Rule
  | SymLinkDir : String → Option FsPath → Rule
  | Suffix : String → FsPath → Rule
  | Exact : String → List String → Rule
deriving DecidableEq, Repr

/-- A visited filesystem entry as produced by the directory walk:
its path relative to the base path (already stripped, main.rs:169) and its
on-disk shape. -/
structure Entry where
  relPath : List String
  node : FsNode

/-- `f.path_is_symlink()` for a visited entry. -/
def Entry.isSymlink (e : Entry) : Bool :=
  match e.node with
  | FsNode.symlink _ => true
  | _ => false

/-- `f.file_type().is_dir()` for a visited entry (symlinks are reported
with their own type, not the followed one). -/
def Entry.isDir (e : Entry) : Bool :=
  match e.node with
  | FsNode.dir _ => true
  | FsNode.dirErr => true
  | _ => false

/-- `f.path()`: the base path joined with the entry's relative path. -/
def fullPath (base : FsPath) (rel : List String) : FsPath :=
  base ++ rel.map PathComp.name

/-- Evaluation of one resolved rule at a visited entry (the `match
rule.get()` arms, main.rs:178-207).  Returns `none` when the rule is
`MountPoint` (the `todo!()` panic, a fatal abort); otherwise returns the
rule's boolean contribution to the verdict together with the memoizing
rules it pushes onto `add_rules` (each inserted with the overwrite/mask
policy). -/
def evalOne (base : FsPath) (e : Entry) : Rule → Option (Bool × List Rule)
  | Rule.Plain _ => some (true, [])
  | Rule.SymLink _ target =>
    some (e.isSymlink &&
      (match target with
       | some t => is_symlink_to e.node t
       | none => true), [])
  | Rule.SymLinkDir rule_name target =>
    let c := !e.isSymlink && e.isDir &&
      (match target with
       | some t => is_symlink_dir_to e.node t
       | none => true)
    some (c, if c then [Rule.Plain rule_name] else [])
  | Rule.Suffix rule_name sfx =>
    let c := pathEndsWith (fullPath base e.relPath) sfx
    some (c, if c then [Rule.Plain rule_name] else [])
  | Rule.Exact _ path2 => some (decide (e.relPath = path2), [])
  | Rule.MountPoint _ => none

/-- The evaluation loop over a resolved rule list (main.rs:176-208): every
rule is examined (no early exit), the verdict is the disjunction of the
per-rule contributions, and the memoizing rules accumulate in encounter
order; any `MountPoint` rule aborts the run. -/
def evalRules (base : FsPath) (e : Entry) : List Rule → Option (Bool × List Rule)
  | [] => some (false, [])
  | r :: rest =>
    match evalOne base e r with
    | none => none
    | some (m1, add1) =>
      (evalRules base e rest).map (fun p => (m1 || p.1, add1 ++ p.2))

/-- The three subcommands (main.rs:11-28). -/
inductive Mode where
  | Or : Mode
  | Nor : Mode
  | And : Mode
deriving DecidableEq, Repr

/-- The combinator merging per-rule-set verdicts into the emit decision
(main.rs:214-221).  Note that the source's `And` arm shares the `Or` arm
and computes `any`. -/
def combine (mode : Mode) (verdicts : List Bool) : Bool :=
  match mode with
  | Mode.Or | Mode.And => verdicts.any id
  | Mode.Nor => verdicts.all (fun x => !x)

/-- Tag-level rules as parsed from the configuration
(config.rs:102-114). -/
inductive CRule where
  | Exact : List String → CRule
  | Dir : List String → CRule
  | Suffix : List String → FsPath → CRule
  | File : List String → CRule
  | SymLink : List String → Option FsPath → CRule
  | SymLinkDir : List String → Option FsPath → CRule
  | MountPoint : List String → CRule
  | Tag : String → CRule
deriving DecidableEq, Repr

/-- A named tag: an ordered list of rules (config.rs:116-119). -/
structure Tag where
  rules : List CRule
deriving DecidableEq, Repr

/-- The parsed configuration, restricted to what the engine consumes: the
tag table (config.rs:121-127).  The table is modelled as an association
list looked up by name. -/
structure Config where
  tags : List (String × Tag)
deriving Repr

/-- The defined tag names of a configuration. -/
def Config.names (cfg : Config) : List String :=
  cfg.tags.map Prod.fst

/-- The tag names referenced by a tag's rules (the `Rule::Tag` arms pushed
onto the work stack, main.rs:139-141). -/
def tagRefs (t : Tag) : List String :=
  t.rules.filterMap (fun r =>
    match r with
    | CRule.Tag n => some n
    | _ => none)

/-- Whether every tag name referenced by any tag of the configuration is
itself defined (the condition under which the `unwrap` of
main.rs:116 cannot fail). -/
def cfgClosed (cfg : Config) : Bool :=
  cfg.tags.all (fun p =>
    p.2.rules.all (fun r =>
      match r with
      | CRule.Tag n => cfg.names.contains n
      | _ => true))

/-- One tag-reference step: tag `a` is defined and its rule list
references tag `m` (a `Rule::Tag` arm, main.rs:139-141). -/
def tagStep (cfg : Config) (a m : String) : Prop :=
  ∃ tag, cfg.tags.lookup a = some tag ∧ m ∈ tagRefs tag

/-- Tag `m` is reachable from tag `a` through zero or more reference
steps; the tags whose primitive rules the compiler must expand. -/
def Reaches (cfg : Config) (a m : String) : Prop :=
  Relation.ReflTransGen (tagStep cfg) a m

/-- Number of defined tags not yet visited; the termination measure of the
tag-expansion loop. -/
def unvisitedCount (cfg : Config) (visited : List String) : Nat :=
  (cfg.names.toFinset \ visited.toFinset).card

/-- The tag-expansion loop of `add_rules_to_tree` (main.rs:108-145): pop a
tag name from the work stack (modelled with its head as the top, matching
`Vec::pop`); skip it when already visited; otherwise look it up (`none`
models the `unwrap` panic on an undefined tag), record it as expanded and
push the tags it references (in reverse, so they pop in declaration
order).  Returns the sequence of tags expanded, in expansion order. -/
def expandTags (cfg : Config) (stack visited : List String) :
    Option (List String) :=
  match stack with
  | [] => some []
  | t :: rest =>
    if t ∈ visited then
      expandTags cfg rest visited
    else
      match h : cfg.tags.lookup t with
      | none => none
      | some tag =>
        (expandTags cfg ((tagRefs tag).reverse ++ rest) (t :: visited)).map
          (fun l => t :: l)
termination_by (unvisitedCount cfg visited, stack.length)
decreasing_by
  · apply Prod.Lex.right
    simp
  · apply Prod.Lex.left
    have hmemfst : ∀ (l : List (String × Tag)), l.lookup t = some tag →
        t ∈ l.map Prod.fst := by
      intro l
      induction l with
      | nil => intro hc; simp [List.lookup] at hc
      | cons p l ih =>
        obtain ⟨k, b⟩ := p
        intro hc
        rw [List.lookup] at hc
        by_cases hk : k = t
        · simp [hk]
        · have hbeq : (t == k) = false := by
            simpa using Ne.symm hk
          rw [hbeq] at hc
          simpa using Or.inr (ih hc)
    have ht : t ∈ cfg.names := hmemfst cfg.tags h
    have hv : t ∉ visited := by assumption
    unfold unvisitedCount
    apply Finset.card_lt_card
    rw [List.toFinset_cons]
    constructor
    · exact Finset.sdiff_subset_sdiff (Finset.Subset.refl _)
        (Finset.subset_insert _ _)
    · intro hsub
      have hmem : t ∈ cfg.names.toFinset \ visited.toFinset := by
        rw [Finset.mem_sdiff, List.mem_toFinset, List.mem_toFinset]
        exact ⟨ht, hv⟩
      have := hsub hmem
      rw [Finset.mem_sdiff, Finset.mem_insert] at this
      exact this.2 (Or.inl rfl)

/-- The two insertion policies of the rule tree (spec §3): `append` is the
source term `prepend` (`TreeRule::prepend`), `mask` is the source term
`overwrite` (`TreeRule::overwrite`). -/
inductive Policy where
  | append : Policy
  | mask : Policy
deriving DecidableEq, Repr

/-- Modelled from the spec: the `rule_tree::RulesTree` crate is not among
this repository's sources.  Per spec §3/§4.1, a tree node owns, per
rule-set key, an ordered list of `(policy, rule)` pairs attached exactly at
that node, and owns its children keyed by path component.  The per-node
list is kept in insertion order; children are an association list. -/
inductive RTree where
  | node : List (String × Policy × Rule) → List (String × RTree) → RTree

/-- The empty rule tree (`RulesTree::new`). -/
def RTree.empty : RTree := RTree.node [] []

/-- Replace (or create) the child of name `c`. -/
def setChild : List (String × RTree) → String → RTree → List (String × RTree)
  | [], c, t => [(c, t)]
  | (n, u) :: rest, c, t =>
    if n = c then (n, t) :: rest else (n, u) :: setChild rest c t

/-- Modelled from the spec: `insert(path, rule_set_key, policy, rule)`
(spec §4.1) creates any missing intermediate nodes along `path`, then
appends `(policy, rule)` to the node's list for the key; it always
succeeds. -/
def RTree.insert (t : RTree) : List String → String → Policy → Rule → RTree
  | [], k, p, r =>
    match t with
    | RTree.node rs cs => RTree.node (rs ++ [(k, p, r)]) cs
  | c :: rest, k, p, r =>
    match t with
    | RTree.node rs cs =>
      let child := ((cs.lookup c).getD RTree.empty).insert rest k p r
      RTree.node rs (setChild cs c child)

/-- A node's local `(policy, rule)` list for one rule-set key, in
insertion order. -/
def localRules (rs : List (String × Policy × Rule)) (k : String) :
    List (Policy × Rule) :=
  rs.filterMap (fun x => if x.1 = k then some x.2 else none)

/-- One accumulation step of resolution (spec §3): an `append` rule joins
the accumulator at the end (root-to-leaf order of encounter), a `mask`
rule resets the accumulator to just itself. -/
def applyPR (acc : List Rule) (pr : Policy × Rule) : List Rule :=
  match pr.1 with
  | Policy.append => acc ++ [pr.2]
  | Policy.mask => [pr.2]

/-- Modelled from the spec: `resolve(path, rule_set_key)` (spec §3/§4.1)
walks root→path, at each existing node folding its local list for the key
through `applyPR`; nodes missing from the tree contribute nothing and end
the walk. -/
def RTree.resolve (t : RTree) (path : List String) (k : String)
    (acc : List Rule) : List Rule :=
  match t with
  | RTree.node rs cs =>
    let acc2 := (localRules rs k).foldl applyPR acc
    match path with
    | [] => acc2
    | c :: rest =>
      match cs.lookup c with
      | some child => child.resolve rest k acc2
      | none => acc2

/-- The `(policy, rule)` pairs for key `k` encountered on the root→path
walk, concatenated in root-to-leaf (and, per node, insertion) order. -/
def walkRules (t : RTree) (path : List String) (k : String) :
    List (Policy × Rule) :=
  match t with
  | RTree.node rs cs =>
    localRules rs k ++
      (match path with
       | [] => []
       | c :: rest =>
         match cs.lookup c with
         | some child => walkRules child rest k
         | none => [])

/-- The `(policy, rule)` pairs for key `k` contributed by the nodes
*strictly below* the node at `P`, along the continuation path `Q`
(so that `walkRules t (P ++ Q) k = walkRules t P k ++ belowW t P Q k`). -/
def belowW (t : RTree) : List String → List String → String →
    List (Policy × Rule)
  | [], Q, k =>
    (match t, Q with
     | _, [] => []
     | RTree.node _ cs, c :: rest =>
       (match cs.lookup c with
        | some child => walkRules child rest k
        | none => []))
  | c :: P2, Q, k =>
    (match t with
     | RTree.node _ cs =>
       (match cs.lookup c with
        | some child => belowW child P2 Q k
        | none => []))

/-- Whether an attached `(policy, rule)` pair is a mask. -/
def isMaskPR (pr : Policy × Rule) : Bool :=
  match pr.1 with
  | Policy.mask => true
  | Policy.append => false

/-- The specification's description of resolution (spec §3, the Invariant
paragraph, and §8 Mask precedence): all rules strictly before the most
recent mask are discarded; from the last mask on, the rules are returned
in encounter order. -/
def specMaskResolve : List (Policy × Rule) → List Rule
  | [] => []
  | pr :: rest =>
    if rest.any isMaskPR then specMaskResolve rest
    else pr.2 :: rest.map Prod.snd

/-- Insertion of one primitive tag-level rule into the tree (the `match
rule` arms of `add_rules_to_tree`, main.rs:117-142).  `root` is the
`rule_name` parameter: every inserted walk-time rule carries the *root*
tag's name, not the currently expanded tag's.  `Dir` and `File` insert
with the overwrite (mask) policy; all others with prepend (append); a
`Tag` reference inserts nothing (it is pushed on the work stack
instead). -/
def insertCRule (key root : String) (t : RTree) : CRule → RTree
  | CRule.Suffix p sfx => t.insert p key Policy.append (Rule.Suffix root sfx)
  | CRule.Dir d => t.insert d key Policy.mask (Rule.Plain root)
  | CRule.File f => t.insert f key Policy.mask (Rule.Plain root)
  | CRule.Exact n => t.insert n key Policy.append (Rule.Exact root n)
  | CRule.MountPoint p => t.insert p key Policy.append (Rule.MountPoint root)
  | CRule.SymLink p tg => t.insert p key Policy.append (Rule.SymLink root tg)
  | CRule.SymLinkDir p tg =>
    t.insert p key Policy.append (Rule.SymLinkDir root tg)
  | CRule.Tag _ => t

/-- Insert all primitive rules of one named tag. -/
def insertTagRules (cfg : Config) (key root : String) (t : RTree)
    (tagName : String) : RTree :=
  (((cfg.tags.lookup tagName).map Tag.rules).getD []).foldl
    (insertCRule key root) t

/-- `add_rules_to_tree` (main.rs:108-145): expand the root tag's reference
closure in work-stack order and insert each expanded tag's primitive rules
in declaration order; `none` models the `unwrap` panic on an undefined tag
reference. -/
def add_rules_to_tree (cfg : Config) (key root : String) (t : RTree) :
    Option RTree :=
  (expandTags cfg [root] []).map
    (fun order => order.foldl (insertTagRules cfg key root) t)

/-- The rule-set key `format!("rule{i}")` (main.rs:161,174,210). -/
def ruleKey (i : Nat) : String :=
  "rule" ++ toString i

/-- The compilation loop (main.rs:157-165): in And mode each requested
rule compiles under its own key `rule0..ruleN-1`; otherwise all requested
rules compile under the single shared key `rule0`. -/
def compileAll (cfg : Config) (isAnd : Bool) :
    List String → Nat → RTree → Option RTree
  | [], _, t => some t
  | r :: rest, i, t =>
    match add_rules_to_tree cfg (if isAnd then ruleKey i else ruleKey 0) r t with
    | none => none
    | some t2 => compileAll cfg isAnd rest (i + 1) t2

/-- One rule-set's evaluation at one visited path (the body of the
`for i in 0..count` loop, main.rs:173-212): resolve the path's rules,
evaluate them, then drain the memoizing rules into the tree at the current
path with the overwrite (mask) policy — all before the next rule-set or
visited path is processed.  `none` models the fatal `todo!()` abort. -/
def evalSetStep (t : RTree) (key : String) (base : FsPath) (e : Entry) :
    Option (Bool × RTree) :=
  match evalRules base e (t.resolve e.relPath key []) with
  | none => none
  | some (m, adds) =>
    some (m, adds.foldl (fun tt r => tt.insert e.relPath key Policy.mask r) t)

/-- The per-path loop over the `count` active rule-sets
(main.rs:172-213), collecting one verdict per rule-set. -/
def processSets (base : FsPath) (e : Entry) :
    Nat → Nat → RTree → Option (List Bool × RTree)
  | _, 0, t => some ([], t)
  | i, cnt + 1, t =>
    match evalSetStep t (ruleKey i) base e with
    | none => none
    | some (m, t2) =>
      (processSets base e (i + 1) cnt t2).map (fun p => (m :: p.1, p.2))

/-- The walk loop (main.rs:168-225) reduced to its verdict matrix: for
each visited entry in traversal order, the per-rule-set verdicts computed
against the evolving tree. -/
def walkMatrix (base : FsPath) (count : Nat) :
    List Entry → RTree → Option (List (List Bool))
  | [], _ => some []
  | e :: es, t =>
    match processSets base e 0 count t with
    | none => none
    | some (ms, t2) => (walkMatrix base count es t2).map (fun l => ms :: l)

/-- `count` (main.rs:158): the number of active rule-sets. -/
def modeCount (mode : Mode) (ruleNames : List String) : Nat :=
  if mode = Mode.And then ruleNames.length else 1

/-- The whole run, down to the per-entry per-rule-set verdict matrix:
compile the requested rules, then walk the entries.  `none` models a fatal
abort (undefined tag or unimplemented rule kind). -/
def runMatrix (mode : Mode) (cfg : Config) (ruleNames : List String)
    (entries : List Entry) (base : FsPath) : Option (List (List Bool)) :=
  match compileAll cfg (mode = Mode.And) ruleNames 0 RTree.empty with
  | none => none
  | some t0 => walkMatrix base (modeCount mode ruleNames) entries t0

/-- The per-entry emit decisions of a run (the boolean `m` of
main.rs:214-222 for each visited entry, in traversal order). -/
def runFlags (mode : Mode) (cfg : Config) (ruleNames : List String)
    (entries : List Entry) (base : FsPath) : Option (List Bool) :=
  (runMatrix mode cfg ruleNames entries base).map (List.map (combine mode))

theorem lookup_mem_fst {β : Type} (l : List (String × β)) (t : String)
    (v : β) (h : l.lookup t = some v) : t ∈ l.map Prod.fst := by
  induction l with
  | nil => simp [List.lookup] at h
  | cons p l ih =>
    obtain ⟨k, b⟩ := p
    rw [List.lookup] at h
    by_cases hk : k = t
    · simp [hk]
    · have hbeq : (t == k) = false := by
        simpa using Ne.symm hk
      rw [hbeq] at h
      simpa using Or.inr (ih h)

theorem mem_fst_lookup_isSome {β : Type} (l : List (String × β)) (t : String)
    (h : t ∈ l.map Prod.fst) : (l.lookup t).isSome := by
  induction l with
  | nil => simp at h
  | cons p l ih =>
    obtain ⟨k, b⟩ := p
    rw [List.lookup]
    by_cases hk : k = t
    · simp [hk]
    · have hbeq : (t == k) = false := by
        simpa using Ne.symm hk
      rw [hbeq]
      simp only [List.map_cons, List.mem_cons] at h
      rcases h with h | h
      · exact absurd h.symm hk
      · exact ih h

theorem resolve_eq_foldl_walk (P : List String) (t : RTree) (k : String)
    (acc : List Rule) :
    t.resolve P k acc = (walkRules t P k).foldl applyPR acc := by
  induction P generalizing t acc with
  | nil =>
    obtain ⟨rs, cs⟩ := t
    simp [RTree.resolve, walkRules]
  | cons c rest ih =>
    obtain ⟨rs, cs⟩ := t
    rw [RTree.resolve, walkRules]
    cases h : cs.lookup c with
    | none => simp [h]
    | some child =>
      simp only [h, List.foldl_append]
      exact ih child _

theorem foldl_applyPR_spec (l : List (Policy × Rule)) (acc : List Rule) :
    l.foldl applyPR acc =
      if l.any isMaskPR then specMaskResolve l
      else acc ++ l.map Prod.snd := by
  induction l generalizing acc with
  | nil => simp
  | cons pr rest ih =>
    obtain ⟨p, r⟩ := pr
    cases p with
    | append =>
      rw [List.foldl_cons]
      have happ : applyPR acc (Policy.append, r) = acc ++ [r] := rfl
      rw [happ, ih]
      have hany : ((Policy.append, r) :: rest).any isMaskPR =
          rest.any isMaskPR := by
        simp [isMaskPR]
      rw [hany]
      by_cases hm : rest.any isMaskPR = true
      · simp only [hm, if_true]
        rw [specMaskResolve]
        simp [hm]
      · have hm' : rest.any isMaskPR = false := by
          simpa using hm
        rw [specMaskResolve]
        simp [hm', List.append_assoc]
    | mask =>
      rw [List.foldl_cons]
      have happ : applyPR acc (Policy.mask, r) = [r] := rfl
      rw [happ, ih]
      have hany : ((Policy.mask, r) :: rest).any isMaskPR = true := by
        simp [isMaskPR]
      rw [hany, if_pos rfl]
      rw [specMaskResolve]
      by_cases hm : rest.any isMaskPR = true
      · simp [hm]
      · have hm' : rest.any isMaskPR = false := by
          simpa using hm
        simp [hm']

/-- C4: for any path `P` and rule-set key `K`, resolution returns the
rules encountered on the root-to-`P` walk in root-to-leaf order, except
that the most recent mask rule on the walk discards everything collected
before it (`specMaskResolve`); when the walk carries no mask the result is
just the append rules in encounter order.  Concretely, with an append rule
above an ancestor `A` carrying a mask, and an append rule below `A`, the
result is exactly the mask rule followed by the append rule strictly
below `A`. -/
theorem resolve_mask_precedence :
    (∀ (t : RTree) (P : List String) (k : String),
        t.resolve P k [] =
          if (walkRules t P k).any isMaskPR then
            specMaskResolve (walkRules t P k)
          else (walkRules t P k).map Prod.snd) ∧
    (((RTree.empty.insert [] "k" Policy.append
          (Rule.Exact "r1" [])).insert ["a"] "k" Policy.mask
          (Rule.Plain "m")).insert ["a", "b"] "k" Policy.append
          (Rule.Exact "r2" [])).resolve ["a", "b"] "k" [] =
      [Rule.Plain "m", Rule.Exact "r2" []] := by
  constructor
  · intro t P k
    rw [resolve_eq_foldl_walk, foldl_applyPR_spec]
    simp
  · rfl

theorem evalRules_mountpoint_none (base : FsPath) (e : Entry)
    (rs : List Rule) (tag : String) (h : Rule.MountPoint tag ∈ rs) :
    evalRules base e rs = none := by
  induction rs with
  | nil => cases h
  | cons r rest ih =>
    rcases List.mem_cons.1 h with h1 | h1
    · subst h1
      rfl
    · rw [evalRules]
      cases he : evalOne base e r with
      | none => rfl
      | some p =>
        obtain ⟨m1, add1⟩ := p
        rw [ih h1]
        rfl

/-- C6: evaluating a resolved `MountPoint` rule is the fatal `todo!()`
("unimplemented rule kind") condition: whenever resolution at the visited
path yields a `MountPoint` rule, the per-rule-set evaluation step of the
run aborts (`none`) instead of treating the rule as a non-match. -/
theorem mountpoint_resolution_aborts (t : RTree) (K : String)
    (base : FsPath) (e : Entry) (tag : String)
    (h : Rule.MountPoint tag ∈ t.resolve e.relPath K []) :
    evalSetStep t K base e = none := by
  unfold evalSetStep
  rw [evalRules_mountpoint_none base e _ tag h]

theorem mountpoint_resolution_aborts_witness :
    Rule.MountPoint "t" ∈
      (RTree.empty.insert [] "rule0" Policy.append
        (Rule.MountPoint "t")).resolve [] "rule0" [] ∧
    evalSetStep
      (RTree.empty.insert [] "rule0" Policy.append (Rule.MountPoint "t"))
      "rule0" [PathComp.root] ⟨[], FsNode.file⟩ = none :=
  ⟨by decide,
   mountpoint_resolution_aborts _ _ _ _ "t" (by decide)⟩

theorem combine_nor_not_or (ms : List Bool) :
    combine Mode.Nor ms = !(combine Mode.Or ms) := by
  unfold combine
  induction ms with
  | nil => rfl
  | cons a rest ih => simp_all [List.all_cons, List.any_cons]

/-- C8: for every configuration, requested rule list, entry sequence and
base path, the Nor run's per-entry emit decisions are the pointwise
negation of the Or run's: both modes share the single rule-set `rule0` and
the same tree evolution, so Nor emits a visited path exactly when Or does
not. -/
theorem nor_negates_or (cfg : Config) (ruleNames : List String)
    (entries : List Entry) (base : FsPath) :
    runFlags Mode.Nor cfg ruleNames entries base =
      (runFlags Mode.Or cfg ruleNames entries base).map
        (List.map (fun b => !b)) := by
  unfold runFlags
  have hm : runMatrix Mode.Nor cfg ruleNames entries base =
      runMatrix Mode.Or cfg ruleNames entries base := rfl
  rw [hm]
  cases runMatrix Mode.Or cfg ruleNames entries base with
  | none => rfl
  | some l =>
    simp only [Option.map_some', Option.some.injEq, List.map_map]
    exact List.map_congr_left (fun ms _ => combine_nor_not_or ms)

/-- C1: the claim says that in And mode a visited path is emitted iff all
per-rule-set verdicts are true, so verdicts `[true, false]` must yield
false.  The code's And arm shares the Or arm (`matches.iter().any`), so
with tags `a = {file "f"}` and `b = {file "g"}` compiled under keys
`rule0`/`rule1`, the visited path `f` has verdict matrix `[true, false]`
and is nonetheless emitted — the code contradicts the claim (and the
spec's stated intent). -/
theorem and_mode_emits_on_true_false :
    runMatrix Mode.And
        ⟨[("a", ⟨[CRule.File ["f"]]⟩), ("b", ⟨[CRule.File ["g"]]⟩)]⟩
        ["a", "b"] [⟨["f"], FsNode.file⟩] [PathComp.root] =
      some [[true, false]] ∧
    runFlags Mode.And
        ⟨[("a", ⟨[CRule.File ["f"]]⟩), ("b", ⟨[CRule.File ["g"]]⟩)]⟩
        ["a", "b"] [⟨["f"], FsNode.file⟩] [PathComp.root] =
      some [true] ∧
    combine Mode.And [true, false] = true := by
  refine ⟨?_, ?_, rfl⟩ <;>
    simp [runMatrix, runFlags, compileAll, add_rules_to_tree, expandTags,
      tagRefs, insertTagRules, insertCRule, RTree.insert, setChild,
      walkMatrix, processSets, evalSetStep, evalRules, evalOne,
      RTree.resolve, localRules, applyPR, modeCount, ruleKey, combine,
      RTree.empty, Entry.isSymlink, Entry.isDir, fullPath, pathEndsWith,
      pathStartsWith, List.lookup]

/-- C7: a `Suffix(tag, suffix_path)` rule matches a visited path exactly
when the visited path's trailing components equal `suffix_path`: the
rule's verdict is the component-wise suffix test on the full visited path,
that test holds iff the path splits as some prefix followed by
`suffix_path`, and through the whole pipeline the tag rule
`Suffix("a/b", "x/y")` matches the visited path `a/b/x/y` but not
`a/b/x/z`. -/
theorem suffix_rule_matches_iff :
    (∀ (base : FsPath) (e : Entry) (tag : String) (sfx : FsPath),
        evalOne base e (Rule.Suffix tag sfx) =
          some (pathEndsWith (fullPath base e.relPath) sfx,
            if pathEndsWith (fullPath base e.relPath) sfx then
              [Rule.Plain tag]
            else [])) ∧
    (∀ p sfx : FsPath,
        pathEndsWith p sfx = true ↔ ∃ pre, pre ++ sfx = p) ∧
    runFlags Mode.Or
        ⟨[("t", ⟨[CRule.Suffix ["a", "b"]
            [PathComp.name "x", PathComp.name "y"]]⟩)]⟩
        ["t"] [⟨["a", "b", "x", "y"], FsNode.file⟩] [PathComp.root] =
      some [true] ∧
    runFlags Mode.Or
        ⟨[("t", ⟨[CRule.Suffix ["a", "b"]
            [PathComp.name "x", PathComp.name "y"]]⟩)]⟩
        ["t"] [⟨["a", "b", "x", "z"], FsNode.file⟩] [PathComp.root] =
      some [false] := by
  refine ⟨fun base e tag sfx => rfl, ?_, ?_, ?_⟩
  · intro p sfx
    unfold pathEndsWith
    rw [List.isSuffixOf_iff_suffix]
    exact Iff.rfl
  · simp [runMatrix, runFlags, compileAll, add_rules_to_tree, expandTags,
      tagRefs, insertTagRules, insertCRule, RTree.insert, setChild,
      walkMatrix, processSets, evalSetStep, evalRules, evalOne,
      RTree.resolve, localRules, applyPR, modeCount, ruleKey, combine,
      RTree.empty, Entry.isSymlink, Entry.isDir, fullPath, pathEndsWith,
      pathStartsWith, List.lookup]
    decide
  · simp [runMatrix, runFlags, compileAll, add_rules_to_tree, expandTags,
      tagRefs, insertTagRules, insertCRule, RTree.insert, setChild,
      walkMatrix, processSets, evalSetStep, evalRules, evalOne,
      RTree.resolve, localRules, applyPR, modeCount, ruleKey, combine,
      RTree.empty, Entry.isSymlink, Entry.isDir, fullPath, pathEndsWith,
      pathStartsWith, List.lookup]
    decide

theorem walkRules_empty (P : List String) (k : String) :
    walkRules RTree.empty P k = [] := by
  cases P <;> rfl

theorem setChild_lookup_self (cs : List (String × RTree)) (c : String)
    (x : RTree) : (setChild cs c x).lookup c = some x := by
  induction cs with
  | nil => simp [setChild, List.lookup]
  | cons p rest ih =>
    obtain ⟨n, u⟩ := p
    rw [setChild]
    by_cases hn : n = c
    · subst hn
      simp [List.lookup]
    · rw [if_neg hn, List.lookup]
      have hbeq : (c == n) = false := by
        simpa using Ne.symm hn
      rw [hbeq]
      exact ih

theorem walkRules_insert_from_empty (P : List String) (Q : List String)
    (k : String) (p : Policy) (r : Rule) :
    walkRules (RTree.empty.insert P k p r) (P ++ Q) k = [(p, r)] := by
  induction P with
  | nil =>
    have htree : RTree.empty.insert [] k p r =
        RTree.node [(k, p, r)] [] := rfl
    rw [htree, List.nil_append]
    cases Q with
    | nil => simp [walkRules, localRules]
    | cons c rest => simp [walkRules, localRules, List.lookup]
  | cons c P2 ih =>
    have htree : RTree.empty.insert (c :: P2) k p r =
        RTree.node [] [(c, RTree.empty.insert P2 k p r)] := rfl
    calc walkRules (RTree.empty.insert (c :: P2) k p r) ((c :: P2) ++ Q) k
        = walkRules (RTree.empty.insert P2 k p r) (P2 ++ Q) k := by
          rw [htree, List.cons_append, walkRules]
          simp [localRules, List.lookup]
      _ = [(p, r)] := ih

theorem belowW_nil (t : RTree) (P : List String) (k : String) :
    belowW t P [] k = [] := by
  induction P generalizing t with
  | nil =>
    obtain ⟨rs, cs⟩ := t
    rfl
  | cons c P2 ih =>
    obtain ⟨rs, cs⟩ := t
    rw [belowW]
    cases cs.lookup c with
    | none => rfl
    | some child => exact ih child

theorem belowW_insert_from_empty (P : List String) (Q : List String)
    (k : String) (p : Policy) (r : Rule) :
    belowW (RTree.empty.insert P k p r) P Q k = [] := by
  induction P with
  | nil =>
    have htree : RTree.empty.insert [] k p r =
        RTree.node [(k, p, r)] [] := rfl
    rw [htree]
    cases Q with
    | nil => rfl
    | cons c rest => simp [belowW, List.lookup]
  | cons c P2 ih =>
    have htree : RTree.empty.insert (c :: P2) k p r =
        RTree.node [] [(c, RTree.empty.insert P2 k p r)] := rfl
    rw [htree, belowW]
    simpa [List.lookup] using ih

theorem localRules_append (rs1 rs2 : List (String × Policy × Rule))
    (k : String) :
    localRules (rs1 ++ rs2) k = localRules rs1 k ++ localRules rs2 k := by
  unfold localRules
  rw [List.filterMap_append]

theorem walk_decomp (P : List String) (t : RTree) (Q : List String)
    (k : String) :
    walkRules t (P ++ Q) k = walkRules t P k ++ belowW t P Q k := by
  induction P generalizing t with
  | nil =>
    obtain ⟨rs, cs⟩ := t
    cases Q with
    | nil => simp [walkRules, belowW]
    | cons c rest =>
      rw [List.nil_append, walkRules, walkRules, belowW]
      cases cs.lookup c with
      | none => simp
      | some child => simp
  | cons c P2 ih =>
    obtain ⟨rs, cs⟩ := t
    rw [List.cons_append, walkRules, walkRules, belowW]
    cases cs.lookup c with
    | none => simp
    | some child => simp [ih child, List.append_assoc]

theorem walk_insert (P : List String) (t : RTree) (Q : List String)
    (k : String) (p : Policy) (r : Rule) :
    walkRules (t.insert P k p r) (P ++ Q) k =
      walkRules t P k ++ (p, r) :: belowW t P Q k := by
  induction P generalizing t with
  | nil =>
    obtain ⟨rs, cs⟩ := t
    have htree : (RTree.node rs cs).insert [] k p r =
        RTree.node (rs ++ [(k, p, r)]) cs := rfl
    have hloc : localRules (rs ++ [(k, p, r)]) k =
        localRules rs k ++ [(p, r)] := by
      rw [localRules_append]
      simp [localRules]
    rw [htree, List.nil_append]
    cases Q with
    | nil => simp [walkRules, belowW, hloc]
    | cons c rest =>
      simp only [walkRules, belowW, hloc]
      cases cs.lookup c with
      | none => simp
      | some child => simp
  | cons c P2 ih =>
    obtain ⟨rs, cs⟩ := t
    have htree : (RTree.node rs cs).insert (c :: P2) k p r =
        RTree.node rs
          (setChild cs c
            (((cs.lookup c).getD RTree.empty).insert P2 k p r)) := rfl
    rw [htree, List.cons_append, walkRules, walkRules, belowW,
      setChild_lookup_self]
    cases hc : cs.lookup c with
    | none =>
      simp only [hc, Option.getD_none]
      rw [walkRules_insert_from_empty]
      simp
    | some child =>
      simp only [hc, Option.getD_some]
      rw [ih child]
      simp [List.append_assoc]

theorem belowW_insert (P : List String) (t : RTree) (Q : List String)
    (k : String) (p : Policy) (r : Rule) :
    belowW (t.insert P k p r) P Q k = belowW t P Q k := by
  induction P generalizing t with
  | nil =>
    obtain ⟨rs, cs⟩ := t
    have htree : (RTree.node rs cs).insert [] k p r =
        RTree.node (rs ++ [(k, p, r)]) cs := rfl
    rw [htree]
    cases Q with
    | nil => rfl
    | cons c rest => rfl
  | cons c P2 ih =>
    obtain ⟨rs, cs⟩ := t
    have htree : (RTree.node rs cs).insert (c :: P2) k p r =
        RTree.node rs
          (setChild cs c
            (((cs.lookup c).getD RTree.empty).insert P2 k p r)) := rfl
    rw [htree, belowW, setChild_lookup_self, belowW]
    cases hc : cs.lookup c with
    | none =>
      simp only [hc, Option.getD_none]
      exact belowW_insert_from_empty P2 Q k p r
    | some child =>
      simp only [hc, Option.getD_some]
      exact ih child

theorem walk_insert_fold (adds : List Rule) (t : RTree) (P Q : List String)
    (k : String) :
    walkRules
        (adds.foldl (fun tt r => tt.insert P k Policy.mask r) t) (P ++ Q) k =
      walkRules t P k ++ adds.map (fun r => (Policy.mask, r)) ++
        belowW t P Q k := by
  induction adds generalizing t with
  | nil => simp [walk_decomp]
  | cons a rest ih =>
    rw [List.foldl_cons, ih]
    have hwalk : walkRules (t.insert P k Policy.mask a) P k =
        walkRules t P k ++ [(Policy.mask, a)] := by
      have := walk_insert P t [] k Policy.mask a
      rw [List.append_nil] at this
      rw [this, belowW_nil]
    rw [hwalk, belowW_insert]
    simp [List.append_assoc]

theorem foldl_applyPR_mask_last (l : List (Policy × Rule)) (a : Rule)
    (acc : List Rule) :
    List.foldl applyPR acc (l ++ [(Policy.mask, a)]) = [a] := by
  rw [List.foldl_append]
  rfl

theorem evalOne_adds_plain (base : FsPath) (e : Entry) (r : Rule)
    (b : Bool) (adds1 : List Rule)
    (h : evalOne base e r = some (b, adds1)) :
    ∀ a ∈ adds1, ∃ tg, a = Rule.Plain tg := by
  intro a ha
  cases r with
  | Plain tg =>
    simp only [evalOne, Option.some.injEq, Prod.mk.injEq] at h
    rw [← h.2] at ha
    cases ha
  | MountPoint tg => simp [evalOne] at h
  | SymLink tg tgt =>
    simp only [evalOne, Option.some.injEq, Prod.mk.injEq] at h
    rw [← h.2] at ha
    cases ha
  | SymLinkDir tg tgt =>
    simp only [evalOne, Option.some.injEq, Prod.mk.injEq] at h
    rw [← h.2] at ha
    split at ha
    · rw [List.mem_singleton] at ha
      exact ⟨tg, ha⟩
    · cases ha
  | Suffix tg sfx =>
    simp only [evalOne, Option.some.injEq, Prod.mk.injEq] at h
    rw [← h.2] at ha
    split at ha
    · rw [List.mem_singleton] at ha
      exact ⟨tg, ha⟩
    · cases ha
  | Exact tg p2 =>
    simp only [evalOne, Option.some.injEq, Prod.mk.injEq] at h
    rw [← h.2] at ha
    cases ha

theorem evalRules_adds_plain (base : FsPath) (e : Entry) (rs : List Rule)
    (m : Bool) (adds : List Rule)
    (h : evalRules base e rs = some (m, adds)) :
    ∀ a ∈ adds, ∃ tg, a = Rule.Plain tg := by
  induction rs generalizing m adds with
  | nil =>
    simp only [evalRules, Option.some.injEq, Prod.mk.injEq] at h
    rw [← h.2]
    intro a ha
    cases ha
  | cons r rest ih =>
    rw [evalRules] at h
    cases he : evalOne base e r with
    | none => rw [he] at h; cases h
    | some p1 =>
      obtain ⟨m1, add1⟩ := p1
      rw [he] at h
      cases hr : evalRules base e rest with
      | none => rw [hr] at h; cases h
      | some p2 =>
        obtain ⟨m2, add2⟩ := p2
        rw [hr] at h
        simp only [Option.map_some', Option.some.injEq, Prod.mk.injEq] at h
        intro a ha
        rw [← h.2] at ha
        rcases List.mem_append.1 ha with h1 | h1
        · exact evalOne_adds_plain base e r m1 add1 he a h1
        · exact ih m2 add2 hr a h1

theorem evalRules_mem_true (base : FsPath) (e : Entry) (rs : List Rule)
    (r : Rule) (adds1 : List Rule) (m : Bool) (adds : List Rule)
    (hmem : r ∈ rs) (hone : evalOne base e r = some (true, adds1))
    (h : evalRules base e rs = some (m, adds)) :
    m = true ∧ ∀ a ∈ adds1, a ∈ adds := by
  induction rs generalizing m adds with
  | nil => cases hmem
  | cons r0 rest ih =>
    rw [evalRules] at h
    cases he : evalOne base e r0 with
    | none => rw [he] at h; cases h
    | some p1 =>
      obtain ⟨m1, add1⟩ := p1
      rw [he] at h
      cases hr : evalRules base e rest with
      | none => rw [hr] at h; cases h
      | some p2 =>
        obtain ⟨m2, add2⟩ := p2
        rw [hr] at h
        simp only [Option.map_some', Option.some.injEq, Prod.mk.injEq] at h
        rcases List.mem_cons.1 hmem with h0 | h0
        · subst h0
          rw [hone] at he
          injection he with he1
          injection he1 with hm1 ha1
          constructor
          · rw [← h.1, ← hm1]
            rfl
          · intro a ha
            rw [← h.2, ← ha1]
            exact List.mem_append.2 (Or.inl ha)
        · obtain ⟨hm2, hsub⟩ := ih m2 add2 h0 hr
          constructor
          · rw [← h.1, hm2, Bool.or_true]
          · intro a ha
            rw [← h.2]
            exact List.mem_append.2 (Or.inr (hsub a ha))

/-- C3: when a `Suffix` or `SymLinkDir` rule resolved at visited path `P`
for rule-set `K` evaluates true, the evaluation step for that rule-set
inserts `(mask, Plain(tag))` at `P` before the next visited path: the
verdict is true, re-resolving `P` afterwards returns exactly one `Plain`
rule, and for every descendant `P ++ Q` the resolution equals the fold of
the rules strictly below `P` started from that single `Plain` — so the
rules at or above `P` (the memoized suffix/recursive-symlink rule
included) are never consulted again for `P` or its descendants. -/
theorem memoizing_insert_masks
    (t : RTree) (K : String) (base : FsPath) (e : Entry) (r : Rule)
    (tag : String) (m : Bool) (t2 : RTree)
    (hkind : (∃ sfx, r = Rule.Suffix tag sfx) ∨
      (∃ tgt, r = Rule.SymLinkDir tag tgt))
    (hr : r ∈ t.resolve e.relPath K [])
    (htrue : evalOne base e r = some (true, [Rule.Plain tag]))
    (hstep : evalSetStep t K base e = some (m, t2)) :
    m = true ∧
    ∃ tg2,
      t2.resolve e.relPath K [] = [Rule.Plain tg2] ∧
      ∀ Q, t2.resolve (e.relPath ++ Q) K [] =
        (belowW t e.relPath Q K).foldl applyPR [Rule.Plain tg2] := by
  unfold evalSetStep at hstep
  cases hE : evalRules base e (t.resolve e.relPath K []) with
  | none => rw [hE] at hstep; cases hstep
  | some p =>
    obtain ⟨mv, adds⟩ := p
    rw [hE] at hstep
    injection hstep with hstep1
    injection hstep1 with hm ht2
    obtain ⟨hmv, hsub⟩ :=
      evalRules_mem_true base e _ r [Rule.Plain tag] mv adds hr htrue hE
    have hplain : Rule.Plain tag ∈ adds := hsub _ (List.mem_singleton.2 rfl)
    rcases List.eq_nil_or_concat' adds with hnil | ⟨init, alast, hdec⟩
    · rw [hnil] at hplain
      cases hplain
    · have hlast_plain : ∃ tg2, alast = Rule.Plain tg2 := by
        apply evalRules_adds_plain base e _ mv adds hE
        rw [hdec]
        exact List.mem_append.2 (Or.inr (List.mem_singleton.2 rfl))
      obtain ⟨tg2, hl⟩ := hlast_plain
      refine ⟨by rw [← hm, hmv], tg2, ?_, ?_⟩
      · have hQ : t2.resolve (e.relPath ++ []) K [] =
            (belowW t e.relPath [] K).foldl applyPR [Rule.Plain tg2] := by
          rw [← ht2, resolve_eq_foldl_walk, walk_insert_fold, hdec,
            List.map_append, hl]
          rw [show (List.map (fun r => (Policy.mask, r)) [Rule.Plain tg2]) =
            [(Policy.mask, Rule.Plain tg2)] from rfl]
          rw [List.foldl_append, List.foldl_append, List.foldl_append]
          rw [show ∀ l, List.foldl applyPR l [(Policy.mask, Rule.Plain tg2)]
              = [Rule.Plain tg2] from fun l => rfl]
        rw [List.append_nil] at hQ
        rw [hQ, belowW_nil]
        rfl
      · intro Q
        rw [← ht2, resolve_eq_foldl_walk, walk_insert_fold, hdec,
          List.map_append, hl]
        rw [show (List.map (fun r => (Policy.mask, r)) [Rule.Plain tg2]) =
          [(Policy.mask, Rule.Plain tg2)] from rfl]
        rw [List.foldl_append, List.foldl_append, List.foldl_append]
        rw [show ∀ l, List.foldl applyPR l [(Policy.mask, Rule.Plain tg2)]
            = [Rule.Plain tg2] from fun l => rfl]

theorem memoizing_insert_masks_witness :
    (Rule.Suffix "t" [PathComp.name "f"] ∈
      (RTree.empty.insert [] "rule0" Policy.append
        (Rule.Suffix "t" [PathComp.name "f"])).resolve ["f"] "rule0" []) ∧
    (true = true ∧
      ∃ tg2,
        ((RTree.empty.insert [] "rule0" Policy.append
            (Rule.Suffix "t" [PathComp.name "f"])).insert ["f"] "rule0"
            Policy.mask (Rule.Plain "t")).resolve ["f"] "rule0" [] =
          [Rule.Plain tg2] ∧
        ∀ Q, ((RTree.empty.insert [] "rule0" Policy.append
            (Rule.Suffix "t" [PathComp.name "f"])).insert ["f"] "rule0"
            Policy.mask (Rule.Plain "t")).resolve (["f"] ++ Q) "rule0" [] =
          (belowW (RTree.empty.insert [] "rule0" Policy.append
            (Rule.Suffix "t" [PathComp.name "f"])) ["f"] Q "rule0").foldl
            applyPR [Rule.Plain tg2]) :=
  ⟨by decide,
   memoizing_insert_masks
     (RTree.empty.insert [] "rule0" Policy.append
       (Rule.Suffix "t" [PathComp.name "f"]))
     "rule0" [PathComp.root] ⟨["f"], FsNode.file⟩
     (Rule.Suffix "t" [PathComp.name "f"]) "t" true
     ((RTree.empty.insert [] "rule0" Policy.append
       (Rule.Suffix "t" [PathComp.name "f"])).insert ["f"] "rule0"
       Policy.mask (Rule.Plain "t"))
     (Or.inl ⟨[PathComp.name "f"], rfl⟩)
     (by decide)
     (by decide)
     rfl⟩

/-- C2 counterexample: the claim says a directory containing one regular
file never matches a `SymLinkDir` rule, whether or not a target is given;
but with the target omitted the code checks only that the entry is a real
directory (`unwrap_or(true)`, main.rs:188), so a real directory holding a
single regular file matches and even triggers the memoizing insertion. -/
theorem symlinkdir_no_target_matches_file_dir :
    evalOne [PathComp.root] ⟨["d"], FsNode.dir [some FsNode.file]⟩
      (Rule.SymLinkDir "t" none) = some (true, [Rule.Plain "t"]) := rfl

theorem entriesOk_iff (entries : List (Option FsNode)) (t : FsPath) :
    symlinkDirEntriesOk entries t = true ↔
      ∀ en ∈ entries,
        (∃ lt, en = some (FsNode.symlink lt) ∧
          pathStartsWith lt t = true) ∨
        (∃ es, en = some (FsNode.dir es) ∧
          symlinkDirEntriesOk es t = true) := by
  induction entries with
  | nil => simp [symlinkDirEntriesOk]
  | cons en rest ih =>
    cases en with
    | none => simp [symlinkDirEntriesOk, ih, List.forall_mem_cons]
    | some n =>
      cases n with
      | file => simp [symlinkDirEntriesOk, ih, List.forall_mem_cons]
      | dirErr => simp [symlinkDirEntriesOk, ih, List.forall_mem_cons]
      | symlink lt => simp [symlinkDirEntriesOk, ih, List.forall_mem_cons]
      | dir es => simp [symlinkDirEntriesOk, ih, List.forall_mem_cons]

/-- C2 amended: a `SymLinkDir(tag, Some target)` rule matches exactly the
real (non-symlink) directories whose entire transitive readable content is
symlinks whose raw targets lie under `target`; a `SymLinkDir(tag, None)`
rule performs no content check at all and matches every real (non-symlink)
directory.  Hence a directory containing one regular file fails the
targeted rule but matches the target-less one, and a directory of symlinks
into `/target` matches `Some /target`. -/
theorem symlinkdir_rule_matches_iff :
    (∀ (entries : List (Option FsNode)) (t : FsPath),
        is_symlink_dir_to (FsNode.dir entries) t = true ↔
          ∀ en ∈ entries,
            (∃ lt, en = some (FsNode.symlink lt) ∧
              pathStartsWith lt t = true) ∨
            (∃ es, en = some (FsNode.dir es) ∧
              is_symlink_dir_to (FsNode.dir es) t = true)) ∧
    (∀ (base : FsPath) (e : Entry) (tag : String) (t : FsPath),
        evalOne base e (Rule.SymLinkDir tag (some t)) =
          some (!e.isSymlink && e.isDir && is_symlink_dir_to e.node t,
            if !e.isSymlink && e.isDir && is_symlink_dir_to e.node t then
              [Rule.Plain tag]
            else [])) ∧
    (∀ (base : FsPath) (e : Entry) (tag : String),
        evalOne base e (Rule.SymLinkDir tag none) =
          some (!e.isSymlink && e.isDir,
            if !e.isSymlink && e.isDir then [Rule.Plain tag] else [])) ∧
    evalOne [PathComp.root]
      ⟨["d"], FsNode.dir
        [some (FsNode.symlink
          [PathComp.root, PathComp.name "target", PathComp.name "a"])]⟩
      (Rule.SymLinkDir "t"
        (some [PathComp.root, PathComp.name "target"])) =
      some (true, [Rule.Plain "t"]) ∧
    evalOne [PathComp.root] ⟨["d"], FsNode.dir [some FsNode.file]⟩
      (Rule.SymLinkDir "t"
        (some [PathComp.root, PathComp.name "target"])) =
      some (false, []) ∧
    evalOne [PathComp.root] ⟨["d"], FsNode.dir [some FsNode.file]⟩
      (Rule.SymLinkDir "t" none) = some (true, [Rule.Plain "t"]) := by
  refine ⟨?_, ?_, ?_, ?_, ?_, rfl⟩
  · intro entries t
    rw [show is_symlink_dir_to (FsNode.dir entries) t =
      symlinkDirEntriesOk entries t from rfl]
    exact entriesOk_iff entries t
  · intro base e tag t
    simp [evalOne]
  · intro base e tag
    simp [evalOne]
  · simp [evalOne, Entry.isSymlink, Entry.isDir, is_symlink_dir_to,
      symlinkDirEntriesOk, pathStartsWith, List.isPrefixOf]
  · simp [evalOne, Entry.isSymlink, Entry.isDir, is_symlink_dir_to,
      symlinkDirEntriesOk, pathStartsWith, List.isPrefixOf]

/-- C9: the symlink-target test compares the raw, unresolved readlink
value of the entry against the rule's target by component-wise prefix —
no canonicalization, no resolution against the parent directory — so for a
`SymLink(tag, Some absolute_target)` rule a symlink whose stored target is
a relative path never matches, wherever it may actually resolve to. -/
theorem symlink_raw_target_comparison :
    (∀ (base : FsPath) (rel : List String) (lt : FsPath) (tag : String)
        (target : FsPath),
        evalOne base ⟨rel, FsNode.symlink lt⟩
          (Rule.SymLink tag (some target)) =
          some (pathStartsWith lt target, [])) ∧
    (∀ (base : FsPath) (rel : List String) (lt : FsPath) (tag : String)
        (target : FsPath),
        pathIsAbsolute lt = false → pathIsAbsolute target = true →
        evalOne base ⟨rel, FsNode.symlink lt⟩
          (Rule.SymLink tag (some target)) = some (false, [])) := by
  constructor
  · intro base rel lt tag target
    simp [evalOne, Entry.isSymlink, is_symlink_to]
  · intro base rel lt tag target habs htabs
    have htarget : ∃ t2, target = PathComp.root :: t2 := by
      cases target with
      | nil => simp [pathIsAbsolute] at htabs
      | cons c t2 =>
        simp only [pathIsAbsolute, List.head?_cons, beq_iff_eq,
          Option.some.injEq] at htabs
        exact ⟨t2, by rw [htabs]⟩
    obtain ⟨t2, ht⟩ := htarget
    have hpr : pathStartsWith lt target = false := by
      rw [ht]
      cases lt with
      | nil => rfl
      | cons c lt2 =>
        simp only [pathIsAbsolute, List.head?_cons] at habs
        have hc : c ≠ PathComp.root := by
          intro hcc
          rw [hcc] at habs
          simp at habs
        unfold pathStartsWith
        rw [List.isPrefixOf]
        have : (PathComp.root == c) = false := by
          simpa using Ne.symm hc
        rw [this]
        rfl
    simp [evalOne, Entry.isSymlink, is_symlink_to, hpr]

theorem symlink_raw_target_comparison_witness :
    pathIsAbsolute [PathComp.name "x"] = false ∧
    pathIsAbsolute [PathComp.root, PathComp.name "t"] = true ∧
    evalOne [PathComp.root] ⟨["l"], FsNode.symlink [PathComp.name "x"]⟩
      (Rule.SymLink "tag"
        (some [PathComp.root, PathComp.name "t"])) = some (false, []) :=
  ⟨by decide, by decide,
   symlink_raw_target_comparison.2 [PathComp.root] ["l"]
     [PathComp.name "x"] "tag" [PathComp.root, PathComp.name "t"]
     (by decide) (by decide)⟩

/-- C10: a real, readable, *empty* directory satisfies every `SymLinkDir`
rule, with or without target — the recursive all-contents-are-symlinks
check is vacuously true — so whenever such a rule is among the resolved
rules and evaluation completes, the rule-set verdict is true and the
memoizing `Plain` insertion is queued for that path. -/
theorem empty_dir_matches_symlinkdir (base : FsPath) (rel : List String)
    (tag : String) (topt : Option FsPath) (rs : List Rule) (m : Bool)
    (adds : List Rule) (hmem : Rule.SymLinkDir tag topt ∈ rs)
    (h : evalRules base ⟨rel, FsNode.dir []⟩ rs = some (m, adds)) :
    m = true ∧ Rule.Plain tag ∈ adds := by
  have hone : evalOne base ⟨rel, FsNode.dir []⟩
      (Rule.SymLinkDir tag topt) = some (true, [Rule.Plain tag]) := by
    cases topt with
    | none => rfl
    | some t =>
      simp [evalOne, Entry.isSymlink, Entry.isDir, is_symlink_dir_to,
        symlinkDirEntriesOk]
  obtain ⟨hm, hsub⟩ := evalRules_mem_true base ⟨rel, FsNode.dir []⟩ rs
    (Rule.SymLinkDir tag topt) [Rule.Plain tag] m adds hmem hone h
  exact ⟨hm, hsub _ (List.mem_singleton.2 rfl)⟩

theorem empty_dir_matches_symlinkdir_witness :
    (Rule.SymLinkDir "t" none ∈ [Rule.SymLinkDir "t" none]) ∧
    evalRules [PathComp.root] ⟨["d"], FsNode.dir []⟩
      [Rule.SymLinkDir "t" none] = some (true, [Rule.Plain "t"]) ∧
    (true = true ∧ Rule.Plain "t" ∈ [Rule.Plain "t"]) :=
  ⟨by decide, rfl,
   empty_dir_matches_symlinkdir [PathComp.root] ["d"] "t" none
     [Rule.SymLinkDir "t" none] true [Rule.Plain "t"] (by decide) rfl⟩

theorem lookup_mem {β : Type} (l : List (String × β)) (t : String) (v : β)
    (h : l.lookup t = some v) : (t, v) ∈ l := by
  induction l with
  | nil => simp [List.lookup] at h
  | cons p l ih =>
    obtain ⟨k, b⟩ := p
    rw [List.lookup] at h
    by_cases hk : t = k
    · subst hk
      rw [beq_self_eq_true] at h
      simp only [Option.some.injEq] at h
      rw [← h]
      exact List.mem_cons_self _ _
    · have hbeq : (t == k) = false := by
        simpa using hk
      rw [hbeq] at h
      exact List.mem_cons_of_mem _ (ih h)

theorem cfgClosed_refs (cfg : Config) (hc : cfgClosed cfg = true)
    (t : String) (tag : Tag) (hl : cfg.tags.lookup t = some tag) :
    ∀ n ∈ tagRefs tag, n ∈ cfg.names := by
  intro n hn
  rw [tagRefs, List.mem_filterMap] at hn
  obtain ⟨r, hr, hfr⟩ := hn
  have hrn : r = CRule.Tag n := by
    cases r <;> simp_all
  subst hrn
  have hpair := lookup_mem cfg.tags t tag hl
  rw [cfgClosed, List.all_eq_true] at hc
  have htag := hc (t, tag) hpair
  rw [List.all_eq_true] at htag
  have := htag (CRule.Tag n) hr
  simpa [List.contains, List.elem_eq_mem] using this

theorem expand_closure (cfg : Config) (hc : cfgClosed cfg = true)
    (stack visited : List String) :
    (∀ s ∈ stack, s ∈ cfg.names) →
    ∃ l, expandTags cfg stack visited = some l ∧ l.Nodup ∧
      (∀ n ∈ l, n ∈ cfg.names ∧ n ∉ visited) ∧
      (∀ s ∈ stack, s ∉ visited → s ∈ l) ∧
      (∀ n ∈ l, ∀ tg, cfg.tags.lookup n = some tg →
        ∀ m ∈ tagRefs tg, m ∈ visited ∨ m ∈ l) := by
  induction stack, visited using expandTags.induct cfg with
  | case1 visited =>
    intro _
    refine ⟨[], by simp [expandTags], List.nodup_nil, ?_, ?_, ?_⟩
    · intro n hn
      cases hn
    · intro s hs
      cases hs
    · intro n hn
      cases hn
  | case2 visited t rest ht ih =>
    intro hstack
    obtain ⟨l, hl, hnd, hprops, hst, hcl⟩ :=
      ih (fun s hs => hstack s (List.mem_cons_of_mem t hs))
    refine ⟨l, ?_, hnd, hprops, ?_, hcl⟩
    · rw [expandTags, if_pos ht]
      exact hl
    · intro s hs hsv
      rcases List.mem_cons.1 hs with h0 | h0
      · rw [h0] at hsv
        exact absurd ht hsv
      · exact hst s h0 hsv
  | case3 visited t rest ht hlk =>
    intro hstack
    have := mem_fst_lookup_isSome cfg.tags t
      (hstack t (List.mem_cons_self t rest))
    rw [hlk] at this
    cases this
  | case4 visited t rest ht tag hlk ih =>
    intro hstack
    have hrefs : ∀ s ∈ (tagRefs tag).reverse ++ rest, s ∈ cfg.names := by
      intro s hs
      rcases List.mem_append.1 hs with h0 | h0
      · exact cfgClosed_refs cfg hc t tag hlk s (List.mem_reverse.1 h0)
      · exact hstack s (List.mem_cons_of_mem t h0)
    obtain ⟨l, hl, hnd, hprops, hst, hcl⟩ := ih hrefs
    have hexp : expandTags cfg (t :: rest) visited = some (t :: l) := by
      rw [expandTags, if_neg ht]
      split
      · next heq =>
        rw [hlk] at heq
        cases heq
      · next tag2 heq =>
        rw [hlk] at heq
        injection heq with heq2
        subst heq2
        rw [hl]
        rfl
    refine ⟨t :: l, hexp, ?_, ?_, ?_, ?_⟩
    · refine List.nodup_cons.2 ⟨?_, hnd⟩
      intro htl
      exact (hprops t htl).2 (List.mem_cons_self t visited)
    · intro n hn
      rcases List.mem_cons.1 hn with h0 | h0
      · rw [h0]
        exact ⟨lookup_mem_fst cfg.tags t tag hlk, ht⟩
      · obtain ⟨h1, h2⟩ := hprops n h0
        exact ⟨h1, fun hv => h2 (List.mem_cons_of_mem t hv)⟩
    · intro s hs hsv
      rcases List.mem_cons.1 hs with h0 | h0
      · rw [h0]
        exact List.mem_cons_self t l
      · by_cases hst2 : s = t
        · rw [hst2]
          exact List.mem_cons_self t l
        · refine List.mem_cons_of_mem t (hst s ?_ ?_)
          · exact List.mem_append.2 (Or.inr h0)
          · intro hv
            rcases List.mem_cons.1 hv with h1 | h1
            · exact hst2 h1
            · exact hsv h1
    · intro n hn tg0 hlk0 m hm
      rcases List.mem_cons.1 hn with h0 | h0
      · rw [h0] at hlk0
        rw [hlk] at hlk0
        injection hlk0 with htg
        rw [← htg] at hm
        have hmstack : m ∈ (tagRefs tag).reverse ++ rest :=
          List.mem_append.2 (Or.inl (List.mem_reverse.2 hm))
        by_cases hmv : m ∈ t :: visited
        · rcases List.mem_cons.1 hmv with h1 | h1
          · rw [h1]
            exact Or.inr (List.mem_cons_self t l)
          · exact Or.inl h1
        · exact Or.inr (List.mem_cons_of_mem t (hst m hmstack hmv))
      · rcases hcl n h0 tg0 hlk0 m hm with h1 | h1
        · rcases List.mem_cons.1 h1 with h2 | h2
          · rw [h2]
            exact Or.inr (List.mem_cons_self t l)
          · exact Or.inl h2
        · exact Or.inr (List.mem_cons_of_mem t h1)

/-- C5: for a configuration whose referenced tag names are all defined,
compiling a root tag terminates even in the presence of direct or
transitive self-reference (`expandTags` is total and returns `some`), and
the expansion order contains *every* tag reachable from the root through
tag references and lists each such tag exactly once (`Nodup`), so the fold
inserting each expanded tag's primitive rules inserts each reachable
tag's rules exactly once; re-encountering a visited tag is skipped. -/
theorem tag_compilation_terminates_once (cfg : Config) (root key : String)
    (t : RTree) (hclosed : cfgClosed cfg = true)
    (hroot : root ∈ cfg.names) :
    ∃ order, expandTags cfg [root] [] = some order ∧ order.Nodup ∧
      root ∈ order ∧ (∀ n ∈ order, n ∈ cfg.names) ∧
      (∀ n, Reaches cfg root n → n ∈ order) ∧
      add_rules_to_tree cfg key root t =
        some (order.foldl (insertTagRules cfg key root) t) := by
  obtain ⟨l, hl, hnd, hprops, hst, hcl⟩ := expand_closure cfg hclosed
    [root] []
    (by
      intro s hs
      rw [List.mem_singleton.1 hs]
      exact hroot)
  have hroot_in : root ∈ l :=
    hst root (List.mem_singleton.2 rfl) (List.not_mem_nil root)
  have hclosure : ∀ n ∈ l, ∀ tg, cfg.tags.lookup n = some tg →
      ∀ m ∈ tagRefs tg, m ∈ l := by
    intro n hn tg hlk m hm
    rcases hcl n hn tg hlk m hm with h1 | h1
    · cases h1
    · exact h1
  refine ⟨l, hl, hnd, hroot_in, ?_, ?_, ?_⟩
  · intro n hn
    exact (hprops n hn).1
  · intro n hr
    induction hr with
    | refl => exact hroot_in
    | tail hab hbc ih =>
      obtain ⟨tg, hlk, hm⟩ := hbc
      exact hclosure _ ih tg hlk _ hm
  · rw [add_rules_to_tree, hl]
    rfl

theorem tag_compilation_terminates_once_witness :
    cfgClosed ⟨[("a", ⟨[CRule.Tag "a", CRule.Tag "b", CRule.File ["x"]]⟩),
      ("b", ⟨[CRule.Tag "a"]⟩)]⟩ = true ∧
    "a" ∈ (Config.mk [("a", ⟨[CRule.Tag "a", CRule.Tag "b",
      CRule.File ["x"]]⟩), ("b", ⟨[CRule.Tag "a"]⟩)]).names ∧
    ∃ order,
      expandTags ⟨[("a", ⟨[CRule.Tag "a", CRule.Tag "b",
          CRule.File ["x"]]⟩), ("b", ⟨[CRule.Tag "a"]⟩)]⟩ ["a"] [] =
        some order ∧
      order.Nodup ∧ "a" ∈ order ∧
      (∀ n ∈ order, n ∈ (Config.mk [("a", ⟨[CRule.Tag "a", CRule.Tag "b",
        CRule.File ["x"]]⟩), ("b", ⟨[CRule.Tag "a"]⟩)]).names) ∧
      (∀ n, Reaches ⟨[("a", ⟨[CRule.Tag "a", CRule.Tag "b",
          CRule.File ["x"]]⟩), ("b", ⟨[CRule.Tag "a"]⟩)]⟩ "a" n →
        n ∈ order) ∧
      add_rules_to_tree ⟨[("a", ⟨[CRule.Tag "a", CRule.Tag "b",
          CRule.File ["x"]]⟩), ("b", ⟨[CRule.Tag "a"]⟩)]⟩ "rule0" "a"
          RTree.empty =
        some (order.foldl
          (insertTagRules ⟨[("a", ⟨[CRule.Tag "a", CRule.Tag "b",
            CRule.File ["x"]]⟩), ("b", ⟨[CRule.Tag "a"]⟩)]⟩ "rule0" "a")
          RTree.empty) :=
  ⟨by decide, by decide,
   tag_compilation_terminates_once
     ⟨[("a", ⟨[CRule.Tag "a", CRule.Tag "b", CRule.File ["x"]]⟩),
       ("b", ⟨[CRule.Tag "a"]⟩)]⟩ "a" "rule0" RTree.empty
     (by decide) (by decide)⟩

end Impertinence
